import Mathlib

/-!
Verification development for the low-dimensional haploid population engine
of ffpopsim (`haploid_gt_dis.cpp`).

The engine stores a population as a real-valued function over the Boolean
hypercube of dimension `L` (indices `0 ≤ i < 2^L` are genotypes, bit `l` of
`i` is the allele at locus `l`).  The C++ `double` arrays are embedded as
functions `ℕ → ℚ` (exact rational arithmetic stands in for floating point),
external math-library functions (`exp`, `sqrt`) and the GSL random draws are
passed in as explicit function parameters, and each operator of the engine
is embedded as a pure function from its inputs to its outputs together with
its integer return code.

The hypercube container itself (`popgen_lowd` hypercube: the Fourier
transform pair, `scale`, and the `order` popcount table) and the `HG_*`
header constants are not part of the given sources; those pieces are
modelled from the specification and are marked as such in their doc
comments.  Everything else is translated directly from
`haploid_gt_dis.cpp`.
-/

namespace HaploidLowd

/-- Modelled from the spec: the `HG_MEMERR` sentinel from the missing header
`popgen_lowd.h` (MemoryError).  The spec only says the error codes are
distinguished negative sentinel values, so a concrete negative value is
chosen, distinct from the other sentinels. -/
def HG_MEMERR : Int := -131545

/-- Modelled from the spec: the `HG_BADARG` sentinel from the missing header
(BadArgument), a distinguished negative sentinel distinct from `HG_MEMERR`
and `HG_EXTINCT`. -/
def HG_BADARG : Int := -131546

/-- Modelled from the spec: the `HG_EXTINCT` sentinel from the missing
header (Extinction), a distinguished negative sentinel. -/
def HG_EXTINCT : Int := -131547

/-- Modelled from the spec: the `HG_NOTHING` near-zero epsilon from the
missing header, used by `resample` for the extinction test.  The spec calls
it a near-zero epsilon; the concrete positive value `10⁻¹²` is chosen. -/
def HG_NOTHING : ℚ := 1 / 10 ^ 12

/-- Modelled from the spec: the `HG_CONTINUOUS` small-count cutoff from the
missing header; `resample` treats genotypes with `population[i] <
HG_CONTINUOUS / pop_size` as discrete (Poisson) and the rest as continuous
(Gaussian). -/
def HG_CONTINUOUS : ℚ := 10000

/-- Modelled from the spec: the `HG_LONGTIMEGEN` wraparound threshold of the
generation counter. -/
def HG_LONGTIMEGEN : ℕ := 1000000000

/-- Modelled from the spec: the hypercube `order` table,
`order i = popcount i`, the number of set bits of the locus subset `i`
(how many loci a coefficient couples).  The hypercube implementation is not
part of the given sources; the spec defines `order(i) = popcount(i)`. -/
def order (n : ℕ) : ℕ :=
  if n = 0 then 0 else n % 2 + order (n / 2)
decreasing_by exact Nat.div_lt_self (Nat.pos_of_ne_zero (by assumption)) Nat.one_lt_two

/-! ## Mutation step (`haploid_gt_dis::mutate`, lines 337-357) -/

/-- Net mutation probability flow into genotype `i` at one locus, the body
of the inner loop of `mutate`: `mf` is `mutation_rates[0]` (forward), `mb`
is `mutation_rates[1]` (backward); `i & (1 << locus)` decides the branch and
the partner genotype is `i - (1 << locus)` resp. `i + (1 << locus)`. -/
def mutant_flow (pop mf mb : ℕ → ℚ) (i locus : ℕ) : ℚ :=
  if i.testBit locus then
    mf locus * pop (i - 2 ^ locus) - mb locus * pop i
  else
    mb locus * pop (i + 2 ^ locus) - mf locus * pop i

/-- The scratch `mutants` hypercube computed by `mutate`: for each genotype
the per-locus flows summed over all loci. -/
def mutants_func (L : ℕ) (pop mf mb : ℕ → ℚ) (i : ℕ) : ℚ :=
  ∑ locus ∈ Finset.range L, mutant_flow pop mf mb i locus

/-- The routine `mutate()`: computes the mutant distribution and adds it into the
population; always returns 0. -/
def mutate (L : ℕ) (mf mb : ℕ → ℚ) (pop : ℕ → ℚ) : (ℕ → ℚ) × Int :=
  (fun i => pop i + mutants_func L pop mf mb i, 0)

/-! ## Fitness statistics (`haploid_gt_dis::get_fitness_statistics`,
lines 744-753) -/

/-- The `stat_t` pair returned by the statistics routines. -/
structure stat_t where
  mean : ℚ
  variance : ℚ
deriving DecidableEq

/-- The routine `get_fitness_statistics()`: accumulates `temp = population[i] *
fitness[i]` into `mf` and `temp * temp` into `sq` over all genotypes and
returns `stat_t(mf, sq - mf)` (sic: the code subtracts the mean, not its
square). -/
def get_fitness_statistics (L : ℕ) (pop fitness : ℕ → ℚ) : stat_t :=
  let mf : ℚ := ∑ i ∈ Finset.range (2 ^ L), pop i * fitness i
  let sq : ℚ := ∑ i ∈ Finset.range (2 ^ L), (pop i * fitness i) * (pop i * fitness i)
  ⟨mf, sq - mf⟩

/-! ## Mutation-rate setters (`haploid_gt_dis::set_mutation_rate`,
lines 512-586) -/

/-- Minimal engine state for the mutation-rate setters: the `mem` flag and
the 2×L table `mutation_rates fb locus` (`fb = 0` forward, `fb = 1`
backward). -/
structure MutState where
  mem : Bool
  number_of_loci : ℕ
  mutation_rates : ℕ → ℕ → ℚ

/-- Overload `set_mutation_rate(double m)`: uniform rate for both directions and all
loci; returns `HG_MEMERR` (without touching the table) when no memory is
allocated. -/
def set_mutation_rate_uniform (m : ℚ) (st : MutState) : MutState × Int :=
  if st.mem then
    ({ st with mutation_rates := fun fb locus =>
        if fb < 2 ∧ locus < st.number_of_loci then m
        else st.mutation_rates fb locus }, 0)
  else (st, HG_MEMERR)

/-- Overload `set_mutation_rate(double mforward, double mbackward)`: one rate per
direction, uniform over loci; returns `HG_MEMERR` when no memory is
allocated. -/
def set_mutation_rate_fwd_back (mforward mbackward : ℚ) (st : MutState) :
    MutState × Int :=
  if st.mem then
    ({ st with mutation_rates := fun fb locus =>
        if fb < 2 ∧ locus < st.number_of_loci then
          (if fb = 0 then mforward else mbackward)
        else st.mutation_rates fb locus }, 0)
  else (st, HG_MEMERR)

/-- Overload `set_mutation_rate(double* m)`: per-locus rates, symmetric in direction;
returns `HG_MEMERR` when no memory is allocated. -/
def set_mutation_rate_locus (m : ℕ → ℚ) (st : MutState) : MutState × Int :=
  if st.mem then
    ({ st with mutation_rates := fun fb locus =>
        if fb < 2 ∧ locus < st.number_of_loci then m locus
        else st.mutation_rates fb locus }, 0)
  else (st, HG_MEMERR)

/-- Overload `set_mutation_rate(double** m)`: the full 2×L matrix; returns
`HG_MEMERR` when no memory is allocated. -/
def set_mutation_rate_matrix (m : ℕ → ℕ → ℚ) (st : MutState) : MutState × Int :=
  if st.mem then
    ({ st with mutation_rates := fun fb locus =>
        if fb < 2 ∧ locus < st.number_of_loci then m fb locus
        else st.mutation_rates fb locus }, 0)
  else (st, HG_MEMERR)

/-! ## Selection step (`haploid_gt_dis::select`, lines 282-292) -/

/-- The routine `select()`: reweights every genotype by `exp(fitness)` while
accumulating the normalization sum, then rescales by `1/norm`.  The
math-library `exp` is the function parameter `expF`;
`population.scale(1.0/norm)` is modelled from the spec as pointwise
multiplication by the factor.  Always returns 0. -/
def select (L : ℕ) (expF : ℚ → ℚ) (fitness pop : ℕ → ℚ) : (ℕ → ℚ) × Int :=
  let pop1 : ℕ → ℚ := fun i => pop i * expF (fitness i)
  let norm : ℚ := ∑ i ∈ Finset.range (2 ^ L), pop1 i
  (fun i => pop1 i * (1 / norm), 0)

/-! ## Resampling step (`haploid_gt_dis::resample`, lines 304-328) -/

/-- The per-genotype stochastic perturbation of `resample`: genotypes below
the small-count threshold `HG_CONTINUOUS / pop_size` are replaced by a
Poisson draw divided by the population size, the rest receive a Gaussian
perturbation.  `pois i mean` and `gauss i sigma` are the injected GSL draws
consumed at loop index `i` with the given mean resp. standard deviation;
`sqrtF` models the math-library square root. -/
def resample_perturbed (pop_size : ℚ) (pois : ℕ → ℚ → ℕ) (gauss : ℕ → ℚ → ℚ)
    (sqrtF : ℚ → ℚ) (pop : ℕ → ℚ) : ℕ → ℚ :=
  fun i =>
    if pop i < HG_CONTINUOUS / pop_size then
      (pois i (pop_size * pop i) : ℚ) / pop_size
    else
      pop i + gauss i (sqrtF (pop i / pop_size))

/-- The body of `resample` after the population-size dispatch: perturb every
genotype, accumulate the total mass `norm`, then either return
`HG_EXTINCT` without rescaling (when `norm < HG_NOTHING`) or rescale by
`1/norm` and return 0. -/
def resample_core (L : ℕ) (pop_size : ℚ) (pois : ℕ → ℚ → ℕ)
    (gauss : ℕ → ℚ → ℚ) (sqrtF : ℚ → ℚ) (pop : ℕ → ℚ) : (ℕ → ℚ) × Int :=
  let pop1 := resample_perturbed pop_size pois gauss sqrtF pop
  let norm : ℚ := ∑ i ∈ Finset.range (2 ^ L), pop1 i
  if norm < HG_NOTHING then (pop1, HG_EXTINCT)
  else (fun i => pop1 i * (1 / norm), 0)

/-- The routine `resample(double n)`: uses the engine's stored `population_size` as the
target size when `n < 1.0`, otherwise `n` itself, then runs the resampling
body. -/
def resample (L : ℕ) (population_size n : ℚ) (pois : ℕ → ℚ → ℕ)
    (gauss : ℕ → ℚ → ℚ) (sqrtF : ℚ → ℚ) (pop : ℕ → ℚ) : (ℕ → ℚ) × Int :=
  let pop_size : ℚ := if n < 1 then population_size else n
  resample_core L pop_size pois gauss sqrtF pop

/-- Concrete random-draw and math-function stubs used to instantiate the
stochastic operators at specific inputs. -/
def pois1 : ℕ → ℚ → ℕ := fun _ _ => 1

/-- Concrete Gaussian-draw stub returning 0 for every call. -/
def gauss0 : ℕ → ℚ → ℚ := fun _ _ => 0

/-- Concrete square-root stub (the identity; only the call structure
matters for the theorems). -/
def sqrtF0 : ℚ → ℚ := fun x => x

/-! ## Evolution driver (`haploid_gt_dis::evolve`, lines 189-209) -/

/-- One generation of the evolve loop body: the four guarded calls
`if(err==0) err=select(); if(err==0) err=mutate(); if(err==0)
err=recombine(); if(err==0) err=resample();` over an abstract engine state
`σ`.  Each operator is a state transformer returning its new state and its
error code; the result is the state reached and the first non-zero error
code (0 when all four succeed), later operators not being invoked after a
failure. -/
def op_chain {σ : Type} (selO mutO recO resO : σ → σ × Int) (s : σ) : σ × Int :=
  if (selO s).2 ≠ 0 then selO s
  else if (mutO (selO s).1).2 ≠ 0 then mutO (selO s).1
  else if (recO (mutO (selO s).1).1).2 ≠ 0 then recO (mutO (selO s).1).1
  else resO (recO (mutO (selO s).1).1).1

/-- The generation-counter update at the end of each loop iteration:
`generation++` with the `HG_LONGTIMEGEN` wraparound into
`long_time_generation`. -/
def bump_generation (generation : ℕ) (long_time : ℚ) : ℕ × ℚ :=
  if generation + 1 > HG_LONGTIMEGEN then
    (generation + 1 - HG_LONGTIMEGEN, long_time + (HG_LONGTIMEGEN : ℚ))
  else (generation + 1, long_time)

/-- The driver `evolve(gen)`: run the four-operator generation cycle up to `gen` times,
stopping as soon as an iteration produced a non-zero error code (the counter
updates of that iteration still happen, as in the `while` loop); returns the
final state with counters, and the error code (0 if all generations
succeeded). -/
def evolve {σ : Type} (selO mutO recO resO : σ → σ × Int) :
    ℕ → σ × ℕ × ℚ → (σ × ℕ × ℚ) × Int
  | 0, st => (st, 0)
  | gen + 1, (pop, generation, ltg) =>
    let r := op_chain selO mutO recO resO pop
    let gl := bump_generation generation ltg
    if r.2 ≠ 0 then ((r.1, gl.1, gl.2), r.2)
    else evolve selO mutO recO resO gen (r.1, gl.1, gl.2)

/-- The population-state component of one generation cycle. -/
def chain_pop {σ : Type} (selO mutO recO resO : σ → σ × Int) (s : σ) : σ :=
  (op_chain selO mutO recO resO s).1

/-- The first non-zero error code of one generation cycle (0 on success). -/
def chain_err {σ : Type} (selO mutO recO resO : σ → σ × Int) (s : σ) : Int :=
  (op_chain selO mutO recO resO s).2

/-- Operator stubs for the evolve witness: selection increments an integer
state, mutation and recombination are identities, resampling fails with
code 7 exactly on state 2. -/
def selW : Int → Int × Int := fun s => (s + 1, 0)

/-- Identity operator stub with error code 0. -/
def mutW : Int → Int × Int := fun s => (s, 0)

/-- Identity operator stub with error code 0. -/
def recW : Int → Int × Int := fun s => (s, 0)

/-- Resampling stub failing with code 7 exactly on state 2. -/
def resW : Int → Int × Int := fun s => (s, if s = 2 then 7 else 0)

/-! ## The Fourier transform pair of the hypercube.

The hypercube implementation (`fft_func_to_coeff`, `fft_coeff_to_func`) is
not part of the given sources.  Modelled from the spec: a Walsh–Hadamard
style transform pair between genotype space and locus-subset coefficient
space, with single-subset characters, satisfying the spec's conventions
(`coeff[0] = 1/2^L` is the normalization of a distribution, i.e. the
constant coefficient is the mean of the function values). -/

/-- Modelled from the spec: the Walsh character of locus subset `k` at
genotype `i`, the product over the loci of `k` of `±1` according to the
allele of `i` there. -/
def wsign (L k i : ℕ) : ℚ :=
  ∏ l ∈ Finset.range L, (if k.testBit l && i.testBit l then (-1 : ℚ) else 1)

/-- Modelled from the spec: `fft_coeff_to_func` (coefficient representation
to genotype representation). -/
def fft_coeff_to_func (L : ℕ) (c : ℕ → ℚ) : ℕ → ℚ :=
  fun i => ∑ k ∈ Finset.range (2 ^ L), c k * wsign L k i

/-- Modelled from the spec: `fft_func_to_coeff` (genotype representation to
coefficient representation), the inverse transform. -/
def fft_func_to_coeff (L : ℕ) (f : ℕ → ℚ) : ℕ → ℚ :=
  fun k => (∑ i ∈ Finset.range (2 ^ L), f i * wsign L k i) / 2 ^ L

/-! ## Recombination (`haploid_gt_dis::recombine` and the
`calculate_recombinants` routines, lines 369-501) -/

/-- The inner double loop of the recombinant calculation (lines 428-435):
after processing loci `k = 0..K-1` of subset `i` for partition index `j`,
returns `(count, maternal_alleles, paternal_alleles)`: each locus of `i` is
assigned to the mother or the father according to bit `count` of `j`. -/
def mploop (i j : ℕ) : ℕ → ℕ × ℕ × ℕ
  | 0 => (0, 0, 0)
  | K + 1 =>
    let cmp := mploop i j K
    if i.testBit K then
      (if j.testBit cmp.1 then (cmp.1 + 1, cmp.2.1 + 2 ^ K, cmp.2.2)
       else (cmp.1 + 1, cmp.2.1, cmp.2.2 + 2 ^ K))
    else cmp

/-- The recombinant coefficients computed by `calculate_recombinants_free`
(lines 409-448) from the population coefficients `c`: `coeff[0] = 1/2^L`,
and for `i ≠ 0` the sum over all `2^order(i)` maternal/paternal partitions
of `c[maternal]·c[paternal]`, scaled by `2^(L − order i)`. -/
def calculate_recombinants_free_coeff (L : ℕ) (c : ℕ → ℚ) : ℕ → ℚ :=
  fun i =>
    if i = 0 then 1 / 2 ^ L
    else (∑ j ∈ Finset.range (2 ^ order i),
        c (mploop i j L).2.1 * c (mploop i j L).2.2) * 2 ^ (L - order i)

/-- The recombinant coefficients computed by
`calculate_recombinants_general` (lines 458-501): as in the free case but
each partition weighted by `recombination_patters[i][j]`, and scaled by
`2^L`. -/
def calculate_recombinants_general_coeff (L : ℕ) (patterns : ℕ → ℕ → ℚ)
    (c : ℕ → ℚ) : ℕ → ℚ :=
  fun i =>
    if i = 0 then 1 / 2 ^ L
    else (∑ j ∈ Finset.range (2 ^ order i),
        patterns i j * c (mploop i j L).2.1 * c (mploop i j L).2.2) * 2 ^ L

/-- The routine `recombine()` (lines 369-383): transform the population to coefficient
space, compute the recombinant distribution (free or general model),
transform it back, then blend `population[i] += outcrossing_rate ·
(recombinants[i] − population[i])` in the free model, or replace the
population by the recombinants in the general model.  Returns the
recombinant-calculation code (always 0). -/
def recombine (L : ℕ) (free_recombination : Bool) (outcrossing_rate : ℚ)
    (patterns : ℕ → ℕ → ℚ) (pop : ℕ → ℚ) : (ℕ → ℚ) × Int :=
  let popCoeff := fft_func_to_coeff L pop
  let recCoeff := if free_recombination then
      calculate_recombinants_free_coeff L popCoeff
    else calculate_recombinants_general_coeff L patterns popCoeff
  let recFunc := fft_coeff_to_func L recCoeff
  (fun i =>
    if free_recombination then pop i + outcrossing_rate * (recFunc i - pop i)
    else recFunc i, 0)

/-- The partition sum of the claim, written over submasks: the sum over all
`2^order(i)` partitions of subset `i` into a maternal part `m` and the
complementary paternal part `i ^^^ m` of `c[m]·c[i ^^^ m]`. -/
def partition_sum (L : ℕ) (c : ℕ → ℚ) (i : ℕ) : ℚ :=
  ∑ m ∈ (Finset.range (2 ^ L)).filter (fun m => m &&& i = m), c m * c (i ^^^ m)

/-! ## Recombination-pattern construction
(`haploid_gt_dis::set_recombination_rates`, lines 604-695) -/

/-- The lowest clear bit of `s`: the locus found by the `marg_locus` search
of the marginalization loop (lines 671-675).  For every subset of order
below `L` the first absent locus is below `L`, so this agrees with the
bounded search of the source. -/
def margLocus (s : ℕ) : ℕ :=
  if h : s % 2 = 0 then 0 else margLocus (s / 2) + 1
decreasing_by exact Nat.div_lt_self (by omega) Nat.one_lt_two

/-- The `higher_order_rec_pattern` index computation (line 683): insert a
zero bit at position `marg_locus` into the length-`set_size` pattern
`rec_pattern`. -/
def higher_order_rec_pattern (set_size marg_locus rec_pattern : ℕ) : ℕ :=
  (rec_pattern &&& (2 ^ marg_locus - 1)) +
    ((rec_pattern &&& (2 ^ set_size - 2 ^ marg_locus)) <<< 1)

/-- One write of the marginalization loop (lines 682-685): row `subset` is
set, for every `rec_pattern < 2^set_size`, to the sum of the two
corresponding entries of the next-higher-order row `subset + 2^marg`, the
two patterns that extend `rec_pattern` by assigning the added locus to
either parent. -/
def marg_write (set_size : ℕ) (T : ℕ → ℕ → ℚ) (subset : ℕ) : ℕ → ℕ → ℚ :=
  fun s r =>
    if s = subset ∧ r < 2 ^ set_size then
      T (subset + 2 ^ margLocus subset)
          (higher_order_rec_pattern set_size (margLocus subset) r) +
        T (subset + 2 ^ margLocus subset)
          (higher_order_rec_pattern set_size (margLocus subset) r +
            2 ^ margLocus subset)
    else T s r

/-- One iteration of the subset loop (lines 666-687): subsets of the wrong
order are skipped (`fitness.order[subset] == set_size`). -/
def marg_step (set_size : ℕ) (T : ℕ → ℕ → ℚ) (subset : ℕ) : ℕ → ℕ → ℚ :=
  if order subset = set_size then marg_write set_size T subset else T

/-- One pass of the marginalization loop: the loop over all `2^L` subsets
at a fixed `set_size`. -/
def marg_pass (L set_size : ℕ) (T : ℕ → ℕ → ℚ) : ℕ → ℕ → ℚ :=
  (List.range (2 ^ L)).foldl (marg_step set_size) T

/-- The list `[n−1, …, 0]` of `set_size` values of the outer loop (line
663). -/
def downList : ℕ → List ℕ
  | 0 => []
  | n + 1 => n :: downList n

/-- The crossover-probability loop for the full-subset pattern (lines
641-654): for crossover pattern `i`, folds over the loci multiplying
`0.5·(1 ± exp(−2·rec_rates[locus]))` according to strand agreement, the
strand starting from bit `L−1` of `i`, counting strand switches; `expF`
models the math-library exponential.  State: (strand, value, switches). -/
def crossover_loop (L : ℕ) (expF : ℚ → ℚ) (rr : ℕ → ℚ) (i : ℕ) :
    Bool × ℚ × ℕ :=
  (List.range L).foldl
    (fun st locus =>
      if st.1 = i.testBit locus then
        (i.testBit locus, st.2.1 * (1/2 * (1 + expF (-2 * rr locus))), st.2.2)
      else
        (i.testBit locus, st.2.1 * (1/2 * (1 - expF (-2 * rr locus))), st.2.2 + 1))
    (i.testBit (L - 1), 1, 0)

/-- The unnormalized full-subset pattern value: zeroed when the number of
strand switches is odd (line 655). -/
def full_pattern_raw (L : ℕ) (expF : ℚ → ℚ) (rr : ℕ → ℚ) (i : ℕ) : ℚ :=
  if (crossover_loop L expF rr i).2.2 % 2 = 1 then 0
  else (crossover_loop L expF rr i).2.1

/-- The normalized full-subset pattern row (lines 656-660). -/
def full_pattern (L : ℕ) (expF : ℚ → ℚ) (rr : ℕ → ℚ) (i : ℕ) : ℚ :=
  full_pattern_raw L expF rr i /
    ∑ k ∈ Finset.range (2 ^ L), full_pattern_raw L expF rr k

/-- The outer-loop step: one full marginalization pass at a given
`set_size`, in the argument order of `List.foldl`. -/
def pass_step (L : ℕ) (T : ℕ → ℕ → ℚ) (ss : ℕ) : ℕ → ℕ → ℚ :=
  marg_pass L ss T

/-- The pattern table produced by `set_recombination_rates(rec_rates)`:
starting from the uninitialized table `Tinit`, write the normalized
full-subset row at index `2^L − 1`, then marginalize down over set sizes
`L−1, …, 0`.  (The memory allocation and the `free_recombination` flag flip
do not affect the table contents.) -/
def set_recombination_rates_table (L : ℕ) (expF : ℚ → ℚ) (rr : ℕ → ℚ)
    (Tinit : ℕ → ℕ → ℚ) : ℕ → ℕ → ℚ :=
  (downList L).foldl (pass_step L)
    (fun s r => if s = 2 ^ L - 1 ∧ r < 2 ^ L then full_pattern L expF rr r
      else Tinit s r)

theorem order_zero : order 0 = 0 := by
  rw [order]
  simp

theorem order_rec (n : ℕ) : order n = n % 2 + order (n / 2) := by
  rcases eq_or_ne n 0 with h | h
  · subst h
    simp [order_zero]
  · rw [order, if_neg h]

theorem order_two_mul_add (a b : ℕ) (hb : b < 2) : order (2 * a + b) = order a + b := by
  rw [order_rec]
  have h1 : (2 * a + b) % 2 = b := by omega
  have h2 : (2 * a + b) / 2 = a := by omega
  rw [h1, h2, Nat.add_comm]

theorem order_le_of_lt_two_pow {K x : ℕ} (h : x < 2 ^ K) : order x ≤ K := by
  induction K generalizing x with
  | zero =>
    interval_cases x
    simp [order_zero]
  | succ K ih =>
    have hx : x = 2 * (x / 2) + x % 2 := by omega
    have hdiv : x / 2 < 2 ^ K := by
      have : (2 : ℕ) ^ (K + 1) = 2 * 2 ^ K := by ring
      omega
    have hmod : x % 2 < 2 := Nat.mod_lt _ (by norm_num)
    have hstep : order x = order (x / 2) + x % 2 := by
      conv_lhs => rw [hx]
      rw [order_two_mul_add _ _ hmod]
    have := ih hdiv
    omega

theorem eq_two_pow_sub_one_of_order_eq {K x : ℕ} (hlt : x < 2 ^ K)
    (h : order x = K) : x = 2 ^ K - 1 := by
  induction K generalizing x with
  | zero =>
    interval_cases x
    rfl
  | succ K ih =>
    have hx : x = 2 * (x / 2) + x % 2 := by omega
    have hmod : x % 2 < 2 := Nat.mod_lt _ (by norm_num)
    have hdiv : x / 2 < 2 ^ K := by
      have : (2 : ℕ) ^ (K + 1) = 2 * 2 ^ K := by ring
      omega
    have hstep : order x = order (x / 2) + x % 2 := by
      conv_lhs => rw [hx]
      rw [order_two_mul_add _ _ hmod]
    rw [hstep] at h
    have hle := order_le_of_lt_two_pow hdiv
    have hodd : x % 2 = 1 := by omega
    have hdivK : order (x / 2) = K := by omega
    have := ih hdiv hdivK
    have hpow : (2 : ℕ) ^ (K + 1) = 2 * 2 ^ K := by ring
    have hKpos : 0 < 2 ^ K := Nat.pos_pow_of_pos _ (by norm_num)
    omega

theorem testBit_zero_false_iff {x : ℕ} : x.testBit 0 = false ↔ x % 2 = 0 := by
  rw [Nat.testBit_zero]
  rcases Nat.mod_two_eq_zero_or_one x with h | h <;> simp [h]

theorem order_add_two_pow {x K : ℕ} (h : x.testBit K = false) :
    order (x + 2 ^ K) = order x + 1 := by
  induction K generalizing x with
  | zero =>
    have hx2 : x % 2 = 0 := testBit_zero_false_iff.mp h
    have h1 : (x + 1) % 2 = 1 := by omega
    have h2 : (x + 1) / 2 = x / 2 := by omega
    rw [order_rec x, order_rec (x + 2 ^ 0)]
    simp only [pow_zero]
    rw [h1, h2, hx2]
    omega
  | succ K ih =>
    have hbit : (x / 2).testBit K = false := by
      rw [← Nat.testBit_add_one]; exact h
    have hpow : (2 : ℕ) ^ (K + 1) = 2 * 2 ^ K := by ring
    have hx : x + 2 ^ (K + 1) = 2 * (x / 2 + 2 ^ K) + x % 2 := by omega
    have hmod : x % 2 < 2 := Nat.mod_lt _ (by norm_num)
    rw [hx, order_two_mul_add _ _ hmod, ih hbit, order_rec x, Nat.add_comm (x % 2)]
    omega

/-- Bit decomposition of adding `2^K` to a number whose bit `K` is clear:
it sets exactly bit `K`. -/
theorem testBit_add_two_pow_of_clear {x K : ℕ} (h : x.testBit K = false) (t : ℕ) :
    (x + 2 ^ K).testBit t = if t = K then true else x.testBit t := by
  have hx : 2 ^ (K + 1) * (x / 2 ^ (K + 1)) + x % 2 ^ (K + 1) = x :=
    Nat.div_add_mod x (2 ^ (K + 1))
  set q := x / 2 ^ (K + 1) with hq
  set r := x % 2 ^ (K + 1) with hr
  have hr2 : r < 2 ^ (K + 1) := Nat.mod_lt _ (Nat.pos_pow_of_pos _ (by norm_num))
  have hrK : r < 2 ^ K := by
    refine Nat.lt_pow_two_of_testBit r fun i hi => ?_
    rcases eq_or_lt_of_le hi with hEq | hgt
    · rw [hr, ← hEq, Nat.testBit_mod_two_pow]
      simp [h, ← hEq]
    · exact Nat.testBit_lt_two_pow (lt_of_lt_of_le hr2 (Nat.pow_le_pow_right (by norm_num) hgt))
  have hb : r + 2 ^ K < 2 ^ (K + 1) := by
    have : (2 : ℕ) ^ (K + 1) = 2 ^ K + 2 ^ K := by ring
    omega
  have hx1 : x + 2 ^ K = 2 ^ (K + 1) * q + (r + 2 ^ K) := by omega
  have tb1 := Nat.testBit_mul_pow_two_add q hb t
  have tb2 := Nat.testBit_mul_pow_two_add q hr2 t
  have tb2x : x.testBit t = if t < K + 1 then r.testBit t else q.testBit (t - (K + 1)) := by
    conv_lhs => rw [← hx]
    exact tb2
  have hsum : 2 ^ K * 1 + r = r + 2 ^ K := by ring
  have tb3 := Nat.testBit_mul_pow_two_add 1 hrK t
  rw [hsum] at tb3
  rw [hx1, tb1, tb2x]
  rcases lt_trichotomy t K with hlt | hEq | hgt
  · rw [if_pos (by omega : t < K + 1), if_pos (by omega : t < K + 1), tb3,
      if_pos hlt, if_neg (by omega : ¬t = K)]
  · subst hEq
    rw [if_pos (by omega : t < t + 1), tb3, if_neg (lt_irrefl t), if_pos rfl]
    simp
  · rw [if_neg (by omega : ¬t < K + 1), if_neg (by omega : ¬t < K + 1),
      if_neg (by omega : ¬t = K)]

/-- If bit `K` of `x` is clear and both fit below `2^L`, then `x + 2^K < 2^L`. -/
theorem add_two_pow_lt {x K L : ℕ} (hx : x < 2 ^ L) (hK : K < L)
    (h : x.testBit K = false) : x + 2 ^ K < 2 ^ L := by
  refine Nat.lt_pow_two_of_testBit _ fun i hi => ?_
  rw [testBit_add_two_pow_of_clear h]
  rw [if_neg (by omega : ¬i = K)]
  exact Nat.testBit_lt_two_pow (lt_of_lt_of_le hx (Nat.pow_le_pow_right (by norm_num) hi))

/-- For a number with bit `K` set, xor with `2^K` is subtraction of `2^K`
(clearing the bit). -/
theorem xor_two_pow_of_set {x K : ℕ} (h : x.testBit K = true) :
    x ^^^ 2 ^ K = x - 2 ^ K := by
  have hge : 2 ^ K ≤ x := Nat.testBit_implies_ge h
  set j := x - 2 ^ K with hj
  have hx : x = j + 2 ^ K := by omega
  have hjK : j.testBit K = false := by
    have := Nat.testBit_two_pow_add_eq j K
    rw [Nat.add_comm] at hx
    rw [← hx] at this
    rw [h] at this
    simpa using this.symm
  apply Nat.eq_of_testBit_eq
  intro t
  rw [Nat.testBit_xor, Nat.testBit_two_pow, hx, testBit_add_two_pow_of_clear hjK]
  rcases eq_or_ne t K with hEq | hne
  · subst hEq; simp [hjK, h]
  · simp [hne, Ne.symm hne]

/-- For a number with bit `K` clear, or with `2^K` is addition of `2^K`
(setting the bit). -/
theorem or_two_pow_of_clear {x K : ℕ} (h : x.testBit K = false) :
    x ||| 2 ^ K = x + 2 ^ K := by
  apply Nat.eq_of_testBit_eq
  intro t
  rw [Nat.testBit_or, Nat.testBit_two_pow, testBit_add_two_pow_of_clear h]
  rcases eq_or_ne t K with hEq | hne
  · subst hEq; simp
  · simp [hne, Ne.symm hne]

/-- Being a submask (`x &&& a = x`) is the bitwise containment of `x` in `a`. -/
theorem land_eq_left_iff {x a : ℕ} :
    x &&& a = x ↔ ∀ t, x.testBit t = true → a.testBit t = true := by
  constructor
  · intro h t ht
    have := congrArg (fun y => y.testBit t) h
    simp only [Nat.testBit_land, ht, Bool.true_and] at this
    exact this
  · intro h
    apply Nat.eq_of_testBit_eq
    intro t
    rw [Nat.testBit_land]
    cases hx : x.testBit t
    · simp
    · simp [h t hx]

/-! ## Theorems -/

/-- C5: `mutate()` sets `mutants[i]` to the sum over loci of the mutation
flows — `fwd_rate[l]*population[i with l cleared] − back_rate[l]*population[i]`
when locus `l` is set in `i` (clearing = `i ^^^ 2^l`), and
`back_rate[l]*population[i with l set] − fwd_rate[l]*population[i]` when it
is clear (setting = `i ||| 2^l`) — then adds `mutants[i]` to
`population[i]`; with all mutation rates zero the population is
unchanged. -/
theorem mutate_flow_formula (L : ℕ) (pop mf mb : ℕ → ℚ) (i : ℕ) :
    mutants_func L pop mf mb i =
      (∑ locus ∈ Finset.range L,
        if i.testBit locus then
          mf locus * pop (i ^^^ 2 ^ locus) - mb locus * pop i
        else
          mb locus * pop (i ||| 2 ^ locus) - mf locus * pop i) ∧
    (mutate L mf mb pop).1 i = pop i + mutants_func L pop mf mb i ∧
    (mutate L (fun _ => 0) (fun _ => 0) pop).1 i = pop i := by
  refine ⟨?_, rfl, ?_⟩
  · apply Finset.sum_congr rfl
    intro l _
    cases hb : i.testBit l
    · simp [mutant_flow, hb, or_two_pow_of_clear hb]
    · simp [mutant_flow, hb, xor_two_pow_of_set hb]
  · simp [mutate, mutants_func, mutant_flow]

/-- C8 (code-bug evidence): at the point-mass population on genotype 0 with
fitness value 2 (one locus), the code's `get_fitness_statistics` returns
mean `2` and "variance" `sq − mf = 4 − 2 = 2`, whereas the claimed
`sq − mean² = 0` is the statistically meaningful value (a point mass has
zero variance); the code subtracts the mean instead of its square. -/
theorem get_fitness_statistics_point_mass_eval :
    get_fitness_statistics 1 (fun i => if i = 0 then 1 else 0)
      (fun i => if i = 0 then 2 else 0) = ⟨2, 2⟩ := by
  show stat_t.mk _ _ = _
  norm_num [get_fitness_statistics, Finset.sum_range_succ]

/-- C9 (counterexample): with memory unallocated, `set_mutation_rate` does
not return the BadArgument sentinel, contrary to the claim: it returns
`HG_MEMERR`. -/
theorem set_mutation_rate_no_mem_not_badarg :
    (set_mutation_rate_uniform 0 ⟨false, 1, fun _ _ => 0⟩).2 ≠ HG_BADARG := by
  decide

/-- C9 (amended): every `set_mutation_rate` overload, invoked on an engine
whose memory is not allocated (`mem = false`), returns the MemoryError code
`HG_MEMERR` and leaves the state — in particular the mutation-rate table —
unchanged. -/
theorem set_mutation_rate_no_mem (m1 mfw mbk : ℚ) (mv : ℕ → ℚ)
    (mm rates : ℕ → ℕ → ℚ) (L : ℕ) :
    set_mutation_rate_uniform m1 ⟨false, L, rates⟩ = (⟨false, L, rates⟩, HG_MEMERR) ∧
    set_mutation_rate_fwd_back mfw mbk ⟨false, L, rates⟩ = (⟨false, L, rates⟩, HG_MEMERR) ∧
    set_mutation_rate_locus mv ⟨false, L, rates⟩ = (⟨false, L, rates⟩, HG_MEMERR) ∧
    set_mutation_rate_matrix mm ⟨false, L, rates⟩ = (⟨false, L, rates⟩, HG_MEMERR) :=
  ⟨rfl, rfl, rfl, rfl⟩

/-- C6: with a nonzero normalization sum, `select()` replaces each
`population[i]` by `population[i]·exp(fitness[i])` divided by the sum of
these weights over all genotypes, the result sums to 1, and the return code
is 0. -/
theorem select_normalizes (L : ℕ) (expF : ℚ → ℚ) (fitness pop : ℕ → ℚ)
    (hnorm : (∑ j ∈ Finset.range (2 ^ L), pop j * expF (fitness j)) ≠ 0) :
    (∀ i, (select L expF fitness pop).1 i =
      pop i * expF (fitness i) /
        ∑ j ∈ Finset.range (2 ^ L), pop j * expF (fitness j)) ∧
    (∑ i ∈ Finset.range (2 ^ L), (select L expF fitness pop).1 i = 1) ∧
    (select L expF fitness pop).2 = 0 := by
  refine ⟨fun i => by rw [select]; simp only; rw [mul_one_div], ?_, rfl⟩
  rw [select]
  simp only
  rw [← Finset.sum_mul, mul_one_div, div_self hnorm]

/-- Witness for C6 at a concrete input (`L = 1`, uniform population,
`expF x = x + 1`, zero fitness). -/
theorem select_normalizes_witness :
    ((∑ j ∈ Finset.range (2 ^ 1),
        (fun _ : ℕ => (1 : ℚ)/2) j * (fun x : ℚ => x + 1) ((fun _ : ℕ => (0 : ℚ)) j)) ≠ 0) ∧
    (∑ i ∈ Finset.range (2 ^ 1),
        (select 1 (fun x : ℚ => x + 1) (fun _ => 0) (fun _ => 1/2)).1 i = 1) :=
  ⟨by norm_num [Finset.sum_range_succ],
    (select_normalizes 1 (fun x : ℚ => x + 1) (fun _ => 0) (fun _ => 1/2)
      (by norm_num [Finset.sum_range_succ])).2.1⟩

/-- C10: `resample(n)` dispatches the target size: for `n < 1.0` it uses the
engine's stored `population_size` for the whole resampling body, for
`n ≥ 1.0` it uses `n` itself. -/
theorem resample_population_size_dispatch (L : ℕ) (population_size n : ℚ)
    (pois : ℕ → ℚ → ℕ) (gauss : ℕ → ℚ → ℚ) (sqrtF : ℚ → ℚ) (pop : ℕ → ℚ) :
    (n < 1 → resample L population_size n pois gauss sqrtF pop =
      resample_core L population_size pois gauss sqrtF pop) ∧
    (1 ≤ n → resample L population_size n pois gauss sqrtF pop =
      resample_core L n pois gauss sqrtF pop) := by
  constructor
  · intro h
    rw [resample]
    simp only [if_pos h]
  · intro h
    rw [resample]
    simp only [if_neg (not_lt.mpr h)]

/-- Witness for C10 at `n = 0` (below 1) and `n = 3` (at least 1). -/
theorem resample_population_size_dispatch_witness :
    ((0 : ℚ) < 1 ∧ resample 1 5 0 pois1 gauss0 sqrtF0 (fun _ => 1/2) =
      resample_core 1 5 pois1 gauss0 sqrtF0 (fun _ => 1/2)) ∧
    ((1 : ℚ) ≤ 3 ∧ resample 1 5 3 pois1 gauss0 sqrtF0 (fun _ => 1/2) =
      resample_core 1 3 pois1 gauss0 sqrtF0 (fun _ => 1/2)) :=
  ⟨⟨by norm_num,
    (resample_population_size_dispatch 1 5 0 pois1 gauss0 sqrtF0 (fun _ => 1/2)).1
      (by norm_num)⟩,
   ⟨by norm_num,
    (resample_population_size_dispatch 1 5 3 pois1 gauss0 sqrtF0 (fun _ => 1/2)).2
      (by norm_num)⟩⟩

/-- C3: for a target size `n ≥ 1` (so that the dispatch keeps `n`),
`resample(n)` replaces each genotype below the cutoff
`HG_CONTINUOUS / n` by a Poisson draw with mean `n·population[i]` divided by
`n`, and adds to each other genotype a Gaussian perturbation with standard
deviation `sqrt(population[i]/n)`; it returns the Extinction code without
rescaling exactly when the post-perturbation mass is below `HG_NOTHING`, and
otherwise rescales the population to total mass 1 and returns 0. -/
theorem resample_poisson_gaussian_extinction (L : ℕ) (ps n : ℚ)
    (pois : ℕ → ℚ → ℕ) (gauss : ℕ → ℚ → ℚ) (sqrtF : ℚ → ℚ) (pop : ℕ → ℚ)
    (hn : 1 ≤ n) :
    (∀ i, pop i < HG_CONTINUOUS / n →
      resample_perturbed n pois gauss sqrtF pop i = (pois i (n * pop i) : ℚ) / n) ∧
    (∀ i, ¬pop i < HG_CONTINUOUS / n →
      resample_perturbed n pois gauss sqrtF pop i =
        pop i + gauss i (sqrtF (pop i / n))) ∧
    ((resample L ps n pois gauss sqrtF pop).2 = HG_EXTINCT ↔
      (∑ i ∈ Finset.range (2 ^ L), resample_perturbed n pois gauss sqrtF pop i)
        < HG_NOTHING) ∧
    ((∑ i ∈ Finset.range (2 ^ L), resample_perturbed n pois gauss sqrtF pop i)
        < HG_NOTHING →
      (resample L ps n pois gauss sqrtF pop).1 =
        resample_perturbed n pois gauss sqrtF pop) ∧
    (¬(∑ i ∈ Finset.range (2 ^ L), resample_perturbed n pois gauss sqrtF pop i)
        < HG_NOTHING →
      (resample L ps n pois gauss sqrtF pop).2 = 0 ∧
      ∑ i ∈ Finset.range (2 ^ L), (resample L ps n pois gauss sqrtF pop).1 i = 1) := by
  have hcore : ∀ ps2 : ℚ, resample_core L ps2 pois gauss sqrtF pop =
      if (∑ i ∈ Finset.range (2 ^ L),
          resample_perturbed ps2 pois gauss sqrtF pop i) < HG_NOTHING then
        (resample_perturbed ps2 pois gauss sqrtF pop, HG_EXTINCT)
      else
        (fun i => resample_perturbed ps2 pois gauss sqrtF pop i *
          (1 / ∑ i ∈ Finset.range (2 ^ L),
            resample_perturbed ps2 pois gauss sqrtF pop i), 0) :=
    fun _ => rfl
  have hdisp : resample L ps n pois gauss sqrtF pop =
      resample_core L n pois gauss sqrtF pop := by
    rw [resample]
    simp only [if_neg (not_lt.mpr hn)]
  refine ⟨fun i h => ?_, fun i h => ?_, ?_, ?_, ?_⟩
  · rw [resample_perturbed]
    simp only [if_pos h]
  · rw [resample_perturbed]
    simp only [if_neg h]
  · rw [hdisp, hcore]
    by_cases hext : (∑ i ∈ Finset.range (2 ^ L),
        resample_perturbed n pois gauss sqrtF pop i) < HG_NOTHING
    · rw [if_pos hext]
      exact ⟨fun _ => hext, fun _ => rfl⟩
    · rw [if_neg hext]
      constructor
      · intro h0
        have h1 : (0 : Int) = HG_EXTINCT := h0
        rw [HG_EXTINCT] at h1
        exact absurd h1 (by decide)
      · intro h
        exact absurd h hext
  · intro hext
    rw [hdisp, hcore, if_pos hext]
  · intro hext
    rw [hdisp, hcore, if_neg hext]
    refine ⟨rfl, ?_⟩
    have hpos : (0 : ℚ) < HG_NOTHING := by rw [HG_NOTHING]; norm_num
    have hnorm : (∑ i ∈ Finset.range (2 ^ L),
        resample_perturbed n pois gauss sqrtF pop i) ≠ 0 := by
      intro h0
      rw [h0] at hext
      exact hext hpos
    rw [← Finset.sum_mul, mul_one_div, div_self hnorm]

/-- Witness for C3 at a concrete input: `L = 1`, target size `n = 1000`,
uniform population `1/2` (below the cutoff `10`), Poisson draws 1. -/
theorem resample_poisson_gaussian_extinction_witness :
    (1 : ℚ) ≤ 1000 ∧
    ((fun _ : ℕ => (1 : ℚ)/2) 0 < HG_CONTINUOUS / 1000 ∧
      resample_perturbed 1000 pois1 gauss0 sqrtF0 (fun _ => 1/2) 0 =
        (pois1 0 (1000 * (fun _ : ℕ => (1 : ℚ)/2) 0) : ℚ) / 1000) ∧
    (¬(∑ i ∈ Finset.range (2 ^ 1),
        resample_perturbed 1000 pois1 gauss0 sqrtF0 (fun _ => 1/2) i) < HG_NOTHING ∧
      ∑ i ∈ Finset.range (2 ^ 1),
        (resample 1 5 1000 pois1 gauss0 sqrtF0 (fun _ => 1/2)).1 i = 1) := by
  have hlt : ((fun _ : ℕ => (1 : ℚ)/2) 0) < HG_CONTINUOUS / 1000 := by
    rw [HG_CONTINUOUS]; norm_num
  have hext : ¬(∑ i ∈ Finset.range (2 ^ 1),
      resample_perturbed 1000 pois1 gauss0 sqrtF0 (fun _ => 1/2) i) < HG_NOTHING := by
    rw [HG_NOTHING]
    norm_num [Finset.sum_range_succ, resample_perturbed, pois1, HG_CONTINUOUS]
  exact ⟨by norm_num,
    ⟨hlt, (resample_poisson_gaussian_extinction 1 5 1000 pois1 gauss0 sqrtF0
      (fun _ => 1/2) (by norm_num)).1 0 hlt⟩,
    ⟨hext, ((resample_poisson_gaussian_extinction 1 5 1000 pois1 gauss0 sqrtF0
      (fun _ => 1/2) (by norm_num)).2.2.2.2 hext).2⟩⟩

theorem evolve_succ {σ : Type} (selO mutO recO resO : σ → σ × Int)
    (gen : ℕ) (pop : σ) (generation : ℕ) (ltg : ℚ) :
    evolve selO mutO recO resO (gen + 1) (pop, generation, ltg) =
      if (op_chain selO mutO recO resO pop).2 ≠ 0 then
        (((op_chain selO mutO recO resO pop).1,
          (bump_generation generation ltg).1, (bump_generation generation ltg).2),
          (op_chain selO mutO recO resO pop).2)
      else evolve selO mutO recO resO gen
        ((op_chain selO mutO recO resO pop).1,
          (bump_generation generation ltg).1, (bump_generation generation ltg).2) := by
  rw [evolve]

/-- C7: the evolve loop aborts at the first operator returning a non-zero
code.  The first four conjuncts show one generation cycle returns the state
and code of the first failing operator, invoking no later operator; the
fifth shows `evolve(gen)` propagates the first failing generation's code and
state; the last shows that with never-failing operators all `gen`
generations run and 0 is returned. -/
theorem evolve_stops_at_first_error {σ : Type} (selO mutO recO resO : σ → σ × Int) :
    (∀ s, (selO s).2 ≠ 0 → op_chain selO mutO recO resO s = selO s) ∧
    (∀ s, (selO s).2 = 0 → (mutO (selO s).1).2 ≠ 0 →
      op_chain selO mutO recO resO s = mutO (selO s).1) ∧
    (∀ s, (selO s).2 = 0 → (mutO (selO s).1).2 = 0 →
      (recO (mutO (selO s).1).1).2 ≠ 0 →
      op_chain selO mutO recO resO s = recO (mutO (selO s).1).1) ∧
    (∀ s, (selO s).2 = 0 → (mutO (selO s).1).2 = 0 →
      (recO (mutO (selO s).1).1).2 = 0 →
      op_chain selO mutO recO resO s = resO (recO (mutO (selO s).1).1).1) ∧
    (∀ gen g (pop : σ) (generation : ℕ) (ltg : ℚ), g < gen →
      (∀ j < g, chain_err selO mutO recO resO
        ((chain_pop selO mutO recO resO)^[j] pop) = 0) →
      chain_err selO mutO recO resO ((chain_pop selO mutO recO resO)^[g] pop) ≠ 0 →
      (evolve selO mutO recO resO gen (pop, generation, ltg)).2 =
        chain_err selO mutO recO resO ((chain_pop selO mutO recO resO)^[g] pop) ∧
      (evolve selO mutO recO resO gen (pop, generation, ltg)).1.1 =
        (chain_pop selO mutO recO resO)^[g + 1] pop) ∧
    ((∀ s, (selO s).2 = 0) → (∀ s, (mutO s).2 = 0) → (∀ s, (recO s).2 = 0) →
      (∀ s, (resO s).2 = 0) →
      ∀ gen (pop : σ) (generation : ℕ) (ltg : ℚ),
        (evolve selO mutO recO resO gen (pop, generation, ltg)).2 = 0 ∧
        (evolve selO mutO recO resO gen (pop, generation, ltg)).1.1 =
          (chain_pop selO mutO recO resO)^[gen] pop) := by
  refine ⟨?_, ?_, ?_, ?_, ?_, ?_⟩
  · intro s h
    rw [op_chain, if_pos h]
  · intro s h1 h2
    rw [op_chain, if_neg (by simpa using h1), if_pos h2]
  · intro s h1 h2 h3
    rw [op_chain, if_neg (by simpa using h1), if_neg (by simpa using h2), if_pos h3]
  · intro s h1 h2 h3
    rw [op_chain, if_neg (by simpa using h1), if_neg (by simpa using h2),
      if_neg (by simpa using h3)]
  · intro gen g
    induction g generalizing gen with
    | zero =>
      intro pop generation ltg hlt _ hfail
      obtain ⟨gen1, rfl⟩ : ∃ gen1, gen = gen1 + 1 := ⟨gen - 1, by omega⟩
      rw [evolve_succ, if_pos (by simpa [chain_err] using hfail)]
      exact ⟨rfl, by simp [chain_pop]⟩
    | succ g ih =>
      intro pop generation ltg hlt hok hfail
      obtain ⟨gen1, rfl⟩ : ∃ gen1, gen = gen1 + 1 := ⟨gen - 1, by omega⟩
      have h0 : chain_err selO mutO recO resO pop = 0 := by
        simpa using hok 0 (by omega)
      rw [evolve_succ, if_neg (by simpa [chain_err] using h0)]
      have hstep : ∀ j, (chain_pop selO mutO recO resO)^[j]
          (chain_pop selO mutO recO resO pop) =
          (chain_pop selO mutO recO resO)^[j + 1] pop := by
        intro j
        rw [Function.iterate_succ_apply]
      have := ih gen1 (chain_pop selO mutO recO resO pop) (bump_generation generation ltg).1
        (bump_generation generation ltg).2 (by omega)
        (fun j hj => by rw [hstep]; exact hok (j + 1) (by omega))
        (by rw [hstep]; exact hfail)
      rw [hstep, hstep] at this
      exact this
  · intro hsel hmut hrec hres gen
    have hchain0 : ∀ s, (op_chain selO mutO recO resO s).2 = 0 := by
      intro s
      rw [op_chain, if_neg (by simpa using hsel s), if_neg (by simpa using hmut _),
        if_neg (by simpa using hrec _)]
      exact hres _
    induction gen with
    | zero =>
      intro pop generation ltg
      exact ⟨rfl, rfl⟩
    | succ gen ih =>
      intro pop generation ltg
      rw [evolve_succ, if_neg (by simpa using hchain0 pop)]
      have hcp : (op_chain selO mutO recO resO pop).1 = chain_pop selO mutO recO resO pop :=
        rfl
      rw [hcp]
      have := ih (chain_pop selO mutO recO resO pop) (bump_generation generation ltg).1
        (bump_generation generation ltg).2
      refine ⟨this.1, ?_⟩
      rw [this.2, ← Function.iterate_succ_apply]

/-- Witness for C7: with the stub operators, generation 0 succeeds from
state 0, generation 1 fails (resampling code 7), and `evolve 5` returns
exactly that code with the state of the failing generation. -/
theorem evolve_stops_at_first_error_witness :
    (1 < 5 ∧
      (∀ j < 1, chain_err selW mutW recW resW ((chain_pop selW mutW recW resW)^[j] 0) = 0) ∧
      chain_err selW mutW recW resW ((chain_pop selW mutW recW resW)^[1] 0) ≠ 0) ∧
    (evolve selW mutW recW resW 5 (0, 0, 0)).2 =
      chain_err selW mutW recW resW ((chain_pop selW mutW recW resW)^[1] 0) ∧
    (evolve selW mutW recW resW 5 (0, 0, 0)).1.1 =
      (chain_pop selW mutW recW resW)^[1 + 1] 0 := by
  have h1 : ∀ j < 1, chain_err selW mutW recW resW
      ((chain_pop selW mutW recW resW)^[j] 0) = 0 := by decide
  have h2 : chain_err selW mutW recW resW
      ((chain_pop selW mutW recW resW)^[1] 0) ≠ 0 := by decide
  exact ⟨⟨by norm_num, h1, h2⟩,
    (evolve_stops_at_first_error selW mutW recW resW).2.2.2.2.1 5 1 0 0 0
      (by norm_num) h1 h2⟩

theorem testBit_sub_two_pow_of_set {x K : ℕ} (h : x.testBit K = true) :
    (x - 2 ^ K).testBit K = false := by
  have hge : 2 ^ K ≤ x := Nat.testBit_implies_ge h
  have hx : x = 2 ^ K + (x - 2 ^ K) := by omega
  have := Nat.testBit_two_pow_add_eq (x - 2 ^ K) K
  rw [← hx, h] at this
  simpa using this.symm

theorem wsign_zero_left (L i : ℕ) : wsign L 0 i = 1 := by
  rw [wsign]
  apply Finset.prod_eq_one
  intro l _
  simp [Nat.zero_testBit]

theorem wsign_congr_low {L k i i' : ℕ} (h : ∀ l < L, i.testBit l = i'.testBit l) :
    wsign L k i = wsign L k i' := by
  rw [wsign, wsign]
  apply Finset.prod_congr rfl
  intro l hl
  rw [h l (Finset.mem_range.mp hl)]

theorem sum_wsign_eq_zero {L k : ℕ} (hk0 : 0 < k) (hk : k < 2 ^ L) :
    ∑ i ∈ Finset.range (2 ^ L), wsign L k i = 0 := by
  induction L generalizing k with
  | zero =>
    simp at hk
    omega
  | succ L ih =>
    have hpow : (2 : ℕ) ^ (L + 1) = 2 ^ L + 2 ^ L := by ring
    rw [hpow, Finset.sum_range_add]
    have hlow : ∀ i ∈ Finset.range (2 ^ L),
        wsign (L + 1) k i = wsign L k i := by
      intro i hi
      have hiL : i.testBit L = false :=
        Nat.testBit_lt_two_pow (Finset.mem_range.mp hi)
      rw [wsign, Finset.prod_range_succ, hiL]
      simp [wsign]
    have hhigh : ∀ i ∈ Finset.range (2 ^ L),
        wsign (L + 1) k (2 ^ L + i) =
          wsign L k i * (if k.testBit L then (-1 : ℚ) else 1) := by
      intro i hi
      have hi2 : i < 2 ^ L := Finset.mem_range.mp hi
      have hiL : i.testBit L = false := Nat.testBit_lt_two_pow hi2
      have hbitL : (2 ^ L + i).testBit L = true := by
        rw [Nat.testBit_two_pow_add_eq, hiL]
        rfl
      have hbits : ∀ l < L, (2 ^ L + i).testBit l = i.testBit l := by
        intro l hl
        exact Nat.testBit_two_pow_add_gt hl i
      rw [wsign, Finset.prod_range_succ, hbitL]
      have : (∏ l ∈ Finset.range L,
          (if k.testBit l && (2 ^ L + i).testBit l then (-1 : ℚ) else 1)) =
          wsign L k i := by
        rw [wsign]
        apply Finset.prod_congr rfl
        intro l hl
        rw [hbits l (Finset.mem_range.mp hl)]
      rw [this]
      cases hkL : k.testBit L <;> simp
    rw [Finset.sum_congr rfl hlow, Finset.sum_congr rfl hhigh]
    cases hkL : k.testBit L
    · have hk2 : k < 2 ^ L := by
        refine Nat.lt_pow_two_of_testBit k fun t ht => ?_
        rcases eq_or_lt_of_le ht with hEq | hgt
        · rw [← hEq]; exact hkL
        · exact Nat.testBit_lt_two_pow
            (lt_of_lt_of_le hk (Nat.pow_le_pow_right (by norm_num) hgt))
      have hI := ih hk0 hk2
      simp [hI]
    · rw [← Finset.sum_add_distrib]
      apply Finset.sum_eq_zero
      intro i _
      simp

theorem sum_fft_coeff_to_func (L : ℕ) (c : ℕ → ℚ) :
    ∑ i ∈ Finset.range (2 ^ L), fft_coeff_to_func L c i = 2 ^ L * c 0 := by
  rw [show (∑ i ∈ Finset.range (2 ^ L), fft_coeff_to_func L c i) =
      ∑ i ∈ Finset.range (2 ^ L), ∑ k ∈ Finset.range (2 ^ L), c k * wsign L k i
    from rfl]
  rw [Finset.sum_comm]
  have hsingle : ∀ k ∈ Finset.range (2 ^ L), k ≠ 0 →
      (∑ i ∈ Finset.range (2 ^ L), c k * wsign L k i) = 0 := by
    intro k hk hk0
    rw [← Finset.mul_sum,
      sum_wsign_eq_zero (Nat.pos_of_ne_zero hk0) (Finset.mem_range.mp hk), mul_zero]
  rw [Finset.sum_eq_single 0 hsingle
    (fun h => absurd (Finset.mem_range.mpr (Nat.pos_pow_of_pos L (by norm_num))) h)]
  have : ∀ i ∈ Finset.range (2 ^ L), c 0 * wsign L 0 i = c 0 := by
    intro i _
    rw [wsign_zero_left, mul_one]
  rw [Finset.sum_congr rfl this, Finset.sum_const, Finset.card_range]
  ring

theorem sum_mutant_flow_eq_zero (L : ℕ) (pop mf mb : ℕ → ℚ) {l : ℕ} (hl : l < L) :
    ∑ i ∈ Finset.range (2 ^ L), mutant_flow pop mf mb i l = 0 := by
  rw [← Finset.sum_filter_add_sum_filter_not (Finset.range (2 ^ L))
    (fun i => i.testBit l = true)]
  have htrue : (∑ i ∈ (Finset.range (2 ^ L)).filter (fun i => i.testBit l = true),
      mutant_flow pop mf mb i l) =
      ∑ x ∈ (Finset.range (2 ^ L)).filter (fun i => ¬i.testBit l = true),
        (mf l * pop x - mb l * pop (x + 2 ^ l)) := by
    refine Finset.sum_nbij' (fun i => i - 2 ^ l) (fun x => x + 2 ^ l) ?_ ?_ ?_ ?_ ?_
    · intro a ha
      dsimp only
      rw [Finset.mem_filter, Finset.mem_range] at ha ⊢
      have hset : a.testBit l = true := by simpa using ha.2
      have ha1 : a < 2 ^ L := ha.1
      refine ⟨lt_of_le_of_lt (Nat.sub_le _ _) ha1, ?_⟩
      simp [testBit_sub_two_pow_of_set hset]
    · intro a ha
      dsimp only
      rw [Finset.mem_filter, Finset.mem_range] at ha ⊢
      have hclear : a.testBit l = false := by simpa using ha.2
      refine ⟨add_two_pow_lt ha.1 hl hclear, ?_⟩
      simp [testBit_add_two_pow_of_clear hclear]
    · intro a ha
      dsimp only
      rw [Finset.mem_filter] at ha
      have hset : a.testBit l = true := by simpa using ha.2
      have := Nat.testBit_implies_ge hset
      omega
    · intro a _
      dsimp only
      omega
    · intro a ha
      dsimp only
      rw [Finset.mem_filter] at ha
      have hset : a.testBit l = true := by simpa using ha.2
      have hge := Nat.testBit_implies_ge hset
      rw [mutant_flow, if_pos hset]
      rw [(by omega : a - 2 ^ l + 2 ^ l = a)]
  rw [htrue]
  have hfalse : (∑ i ∈ (Finset.range (2 ^ L)).filter (fun i => ¬i.testBit l = true),
      mutant_flow pop mf mb i l) =
      ∑ x ∈ (Finset.range (2 ^ L)).filter (fun i => ¬i.testBit l = true),
        (mb l * pop (x + 2 ^ l) - mf l * pop x) := by
    apply Finset.sum_congr rfl
    intro x hx
    rw [Finset.mem_filter] at hx
    have hclear : x.testBit l = false := by simpa using hx.2
    rw [mutant_flow, if_neg (by simp [hclear])]
  rw [hfalse, ← Finset.sum_add_distrib]
  apply Finset.sum_eq_zero
  intro x _
  ring

theorem sum_mutants_eq_zero (L : ℕ) (pop mf mb : ℕ → ℚ) :
    ∑ i ∈ Finset.range (2 ^ L), mutants_func L pop mf mb i = 0 := by
  rw [show (∑ i ∈ Finset.range (2 ^ L), mutants_func L pop mf mb i) =
      ∑ i ∈ Finset.range (2 ^ L), ∑ l ∈ Finset.range L, mutant_flow pop mf mb i l
    from rfl]
  rw [Finset.sum_comm]
  apply Finset.sum_eq_zero
  intro l hl
  exact sum_mutant_flow_eq_zero L pop mf mb (Finset.mem_range.mp hl)

/-- C4: starting from a population whose FUNC values sum to 1, each single
successful operator call leaves the values summing to 1 (exactly, in the
rational embedding): `select()` under a nonzero normalization sum,
`mutate()` unconditionally, `recombine()` in both the free and the general
model, and `resample()` whenever the extinction branch is not taken. -/
theorem operators_preserve_normalization (L : ℕ) (expF : ℚ → ℚ)
    (fitness pop mf mb : ℕ → ℚ) (oc : ℚ) (patterns : ℕ → ℕ → ℚ) (ps : ℚ)
    (pois : ℕ → ℚ → ℕ) (gauss : ℕ → ℚ → ℚ) (sqrtF : ℚ → ℚ)
    (hsum : ∑ i ∈ Finset.range (2 ^ L), pop i = 1) :
    ((∑ j ∈ Finset.range (2 ^ L), pop j * expF (fitness j)) ≠ 0 →
      ∑ i ∈ Finset.range (2 ^ L), (select L expF fitness pop).1 i = 1) ∧
    (∑ i ∈ Finset.range (2 ^ L), (mutate L mf mb pop).1 i = 1) ∧
    (∑ i ∈ Finset.range (2 ^ L), (recombine L true oc patterns pop).1 i = 1) ∧
    (∑ i ∈ Finset.range (2 ^ L), (recombine L false oc patterns pop).1 i = 1) ∧
    (¬(∑ i ∈ Finset.range (2 ^ L), resample_perturbed ps pois gauss sqrtF pop i)
        < HG_NOTHING →
      ∑ i ∈ Finset.range (2 ^ L), (resample_core L ps pois gauss sqrtF pop).1 i = 1) := by
  have hrecF : ∑ i ∈ Finset.range (2 ^ L),
      fft_coeff_to_func L
        (calculate_recombinants_free_coeff L (fft_func_to_coeff L pop)) i = 1 := by
    rw [sum_fft_coeff_to_func,
      show calculate_recombinants_free_coeff L (fft_func_to_coeff L pop) 0 = 1 / 2 ^ L
        from rfl,
      mul_one_div]
    exact div_self (ne_of_gt (by positivity))
  have hrecG : ∑ i ∈ Finset.range (2 ^ L),
      fft_coeff_to_func L
        (calculate_recombinants_general_coeff L patterns (fft_func_to_coeff L pop)) i
      = 1 := by
    rw [sum_fft_coeff_to_func,
      show calculate_recombinants_general_coeff L patterns (fft_func_to_coeff L pop) 0
        = 1 / 2 ^ L from rfl,
      mul_one_div]
    exact div_self (ne_of_gt (by positivity))
  refine ⟨?_, ?_, ?_, ?_, ?_⟩
  · intro hnorm
    rw [show (select L expF fitness pop).1 = fun i => pop i * expF (fitness i) *
        (1 / ∑ j ∈ Finset.range (2 ^ L), pop j * expF (fitness j)) from rfl]
    rw [← Finset.sum_mul, mul_one_div, div_self hnorm]
  · rw [show (mutate L mf mb pop).1 = fun i => pop i + mutants_func L pop mf mb i
      from rfl]
    rw [Finset.sum_add_distrib, hsum, sum_mutants_eq_zero]
    norm_num
  · rw [show (recombine L true oc patterns pop).1 = fun i => pop i + oc *
        (fft_coeff_to_func L
          (calculate_recombinants_free_coeff L (fft_func_to_coeff L pop)) i - pop i)
      from rfl]
    have hterm : ∀ i ∈ Finset.range (2 ^ L), pop i + oc *
        (fft_coeff_to_func L
          (calculate_recombinants_free_coeff L (fft_func_to_coeff L pop)) i - pop i)
        = pop i + (oc * fft_coeff_to_func L
          (calculate_recombinants_free_coeff L (fft_func_to_coeff L pop)) i
          - oc * pop i) := by
      intro i _
      ring
    rw [Finset.sum_congr rfl hterm, Finset.sum_add_distrib, Finset.sum_sub_distrib,
      ← Finset.mul_sum, ← Finset.mul_sum, hsum, hrecF]
    ring
  · rw [show (recombine L false oc patterns pop).1 = fun i => fft_coeff_to_func L
        (calculate_recombinants_general_coeff L patterns (fft_func_to_coeff L pop)) i
      from rfl]
    exact hrecG
  · intro hext
    have hcore : resample_core L ps pois gauss sqrtF pop =
        if (∑ i ∈ Finset.range (2 ^ L),
            resample_perturbed ps pois gauss sqrtF pop i) < HG_NOTHING then
          (resample_perturbed ps pois gauss sqrtF pop, HG_EXTINCT)
        else
          (fun i => resample_perturbed ps pois gauss sqrtF pop i *
            (1 / ∑ i ∈ Finset.range (2 ^ L),
              resample_perturbed ps pois gauss sqrtF pop i), 0) := rfl
    rw [hcore, if_neg hext]
    have hpos : (0 : ℚ) < HG_NOTHING := by rw [HG_NOTHING]; norm_num
    have hnorm : (∑ i ∈ Finset.range (2 ^ L),
        resample_perturbed ps pois gauss sqrtF pop i) ≠ 0 := by
      intro h0
      rw [h0] at hext
      exact hext hpos
    rw [show ((fun i => resample_perturbed ps pois gauss sqrtF pop i *
        (1 / ∑ i ∈ Finset.range (2 ^ L),
          resample_perturbed ps pois gauss sqrtF pop i), (0 : Int)) :
        (ℕ → ℚ) × Int).1 = fun i => resample_perturbed ps pois gauss sqrtF pop i *
        (1 / ∑ i ∈ Finset.range (2 ^ L),
          resample_perturbed ps pois gauss sqrtF pop i) from rfl]
    rw [← Finset.sum_mul, mul_one_div, div_self hnorm]

/-- Witness for C4 at a concrete input: `L = 1`, uniform population summing
to 1, `expF x = x + 1` with zero fitness, zero mutation rates, outcrossing
rate `1/3`, unit pattern table, target size 1000 with Poisson draws 1. -/
theorem operators_preserve_normalization_witness :
    ((∑ i ∈ Finset.range (2 ^ 1), (fun _ : ℕ => (1 : ℚ)/2) i = 1) ∧
      (∑ j ∈ Finset.range (2 ^ 1),
        (fun _ : ℕ => (1 : ℚ)/2) j * (fun x : ℚ => x + 1) ((fun _ : ℕ => (0 : ℚ)) j)) ≠ 0 ∧
      ¬(∑ i ∈ Finset.range (2 ^ 1),
        resample_perturbed 1000 pois1 gauss0 sqrtF0 (fun _ => 1/2) i) < HG_NOTHING) ∧
    (∑ i ∈ Finset.range (2 ^ 1),
      (select 1 (fun x : ℚ => x + 1) (fun _ => 0) (fun _ => 1/2)).1 i = 1) ∧
    (∑ i ∈ Finset.range (2 ^ 1),
      (mutate 1 (fun _ => 0) (fun _ => 0) (fun _ => 1/2)).1 i = 1) ∧
    (∑ i ∈ Finset.range (2 ^ 1),
      (recombine 1 true (1/3) (fun _ _ => 1) (fun _ => 1/2)).1 i = 1) ∧
    (∑ i ∈ Finset.range (2 ^ 1),
      (recombine 1 false (1/3) (fun _ _ => 1) (fun _ => 1/2)).1 i = 1) ∧
    (∑ i ∈ Finset.range (2 ^ 1),
      (resample_core 1 1000 pois1 gauss0 sqrtF0 (fun _ => 1/2)).1 i = 1) := by
  have hsum : ∑ i ∈ Finset.range (2 ^ 1), (fun _ : ℕ => (1 : ℚ)/2) i = 1 := by
    norm_num [Finset.sum_range_succ]
  have hnorm : (∑ j ∈ Finset.range (2 ^ 1),
      (fun _ : ℕ => (1 : ℚ)/2) j * (fun x : ℚ => x + 1) ((fun _ : ℕ => (0 : ℚ)) j)) ≠ 0 := by
    norm_num [Finset.sum_range_succ]
  have hext : ¬(∑ i ∈ Finset.range (2 ^ 1),
      resample_perturbed 1000 pois1 gauss0 sqrtF0 (fun _ => 1/2) i) < HG_NOTHING := by
    rw [HG_NOTHING]
    norm_num [Finset.sum_range_succ, resample_perturbed, pois1, HG_CONTINUOUS]
  have h := operators_preserve_normalization 1 (fun x : ℚ => x + 1) (fun _ => 0)
    (fun _ => 1/2) (fun _ => 0) (fun _ => 0) (1/3) (fun _ _ => 1) 1000
    pois1 gauss0 sqrtF0 hsum
  exact ⟨⟨hsum, hnorm, hext⟩, h.1 hnorm, h.2.1, h.2.2.1, h.2.2.2.1, h.2.2.2.2 hext⟩

theorem testBit_high_of_lt {m K t : ℕ} (hm : m < 2 ^ K) (ht : K ≤ t) :
    m.testBit t = false :=
  Nat.testBit_lt_two_pow (lt_of_lt_of_le hm (Nat.pow_le_pow_right (by norm_num) ht))

theorem land_add_two_pow_right_iff {m a K : ℕ} (hm : m < 2 ^ K)
    (ha : a.testBit K = false) : m &&& (a + 2 ^ K) = m ↔ m &&& a = m := by
  have hmK : m.testBit K = false := testBit_high_of_lt hm (le_refl K)
  rw [land_eq_left_iff, land_eq_left_iff]
  constructor
  · intro h t ht
    have hta := h t ht
    rw [testBit_add_two_pow_of_clear ha] at hta
    rcases eq_or_ne t K with hEq | hne
    · rw [hEq, hmK] at ht
      cases ht
    · rwa [if_neg hne] at hta
  · intro h t ht
    rw [testBit_add_two_pow_of_clear ha]
    rcases eq_or_ne t K with hEq | hne
    · simp [hEq]
    · rw [if_neg hne]
      exact h t ht

theorem land_add_two_pow_both_iff {m a K : ℕ} (hm : m < 2 ^ K)
    (ha : a.testBit K = false) :
    (m + 2 ^ K) &&& (a + 2 ^ K) = m + 2 ^ K ↔ m &&& a = m := by
  have hmK : m.testBit K = false := testBit_high_of_lt hm (le_refl K)
  rw [land_eq_left_iff, land_eq_left_iff]
  constructor
  · intro h t ht
    have htm : (m + 2 ^ K).testBit t = true := by
      rw [testBit_add_two_pow_of_clear hmK]
      rcases eq_or_ne t K with hEq | hne
      · exact absurd ht (by simp [hEq, testBit_high_of_lt hm (le_refl K)])
      · rwa [if_neg hne]
    have hta := h t htm
    rw [testBit_add_two_pow_of_clear ha] at hta
    rcases eq_or_ne t K with hEq | hne
    · exact absurd ht (by simp [hEq, testBit_high_of_lt hm (le_refl K)])
    · rwa [if_neg hne] at hta
  · intro h t ht
    rw [testBit_add_two_pow_of_clear hmK] at ht
    rw [testBit_add_two_pow_of_clear ha]
    rcases eq_or_ne t K with hEq | hne
    · simp [hEq]
    · rw [if_neg hne]
      rw [if_neg hne] at ht
      exact h t ht

theorem xor_add_two_pow_left {m a K : ℕ} (hm : m < 2 ^ K) (ha : a < 2 ^ K) :
    (a + 2 ^ K) ^^^ m = (a ^^^ m) + 2 ^ K := by
  have haK : a.testBit K = false := testBit_high_of_lt ha (le_refl K)
  have hmK : m.testBit K = false := testBit_high_of_lt hm (le_refl K)
  have hxK : (a ^^^ m).testBit K = false := by
    rw [Nat.testBit_xor, haK, hmK]
    rfl
  apply Nat.eq_of_testBit_eq
  intro t
  rw [Nat.testBit_xor, testBit_add_two_pow_of_clear haK,
    testBit_add_two_pow_of_clear hxK]
  rcases eq_or_ne t K with hEq | hne
  · subst hEq
    simp [hmK]
  · rw [if_neg hne, if_neg hne, Nat.testBit_xor]

theorem xor_add_two_pow_both {m a K : ℕ} (hm : m < 2 ^ K) (ha : a < 2 ^ K) :
    (a + 2 ^ K) ^^^ (m + 2 ^ K) = a ^^^ m := by
  have haK : a.testBit K = false := testBit_high_of_lt ha (le_refl K)
  have hmK : m.testBit K = false := testBit_high_of_lt hm (le_refl K)
  apply Nat.eq_of_testBit_eq
  intro t
  rw [Nat.testBit_xor, testBit_add_two_pow_of_clear haK,
    testBit_add_two_pow_of_clear hmK, Nat.testBit_xor]
  rcases eq_or_ne t K with hEq | hne
  · subst hEq
    simp [haK, hmK]
  · rw [if_neg hne, if_neg hne]

theorem order_mod_two_pow_succ_set {x K : ℕ} (h : x.testBit K = true) :
    x % 2 ^ (K + 1) = x % 2 ^ K + 2 ^ K ∧
    order (x % 2 ^ (K + 1)) = order (x % 2 ^ K) + 1 := by
  have hd : x / 2 ^ K % 2 = 1 := by
    have := @Nat.testBit_to_div_mod K x
    rw [h] at this
    simpa using this.symm
  have hdec : x % 2 ^ (K + 1) = x % 2 ^ K + 2 ^ K := by
    rw [Nat.mod_pow_succ, hd]
    ring
  have hbit : (x % 2 ^ K).testBit K = false := by
    rw [Nat.testBit_mod_two_pow]
    simp
  exact ⟨hdec, by rw [hdec, order_add_two_pow hbit]⟩

theorem order_mod_two_pow_succ_clear {x K : ℕ} (h : x.testBit K = false) :
    x % 2 ^ (K + 1) = x % 2 ^ K := by
  have hd : x / 2 ^ K % 2 = 0 := by
    have := @Nat.testBit_to_div_mod K x
    rw [h] at this
    have h2 := Nat.mod_two_eq_zero_or_one (x / 2 ^ K)
    rcases h2 with h0 | h1
    · exact h0
    · rw [h1] at this
      simpa using this.symm
  rw [Nat.mod_pow_succ, hd]
  ring

theorem mploop_count (i j K : ℕ) : (mploop i j K).1 = order (i % 2 ^ K) := by
  induction K with
  | zero =>
    simp [mploop, Nat.mod_one, order_zero]
  | succ K ih =>
    rw [mploop]
    cases hbit : i.testBit K
    · rw [if_neg (by simp [hbit])]
      rw [ih, order_mod_two_pow_succ_clear hbit]
    · rw [if_pos (by simp [hbit])]
      rw [(order_mod_two_pow_succ_set hbit).2]
      cases hj : j.testBit (mploop i j K).1
      · rw [if_neg (by simp [hj])]
        simp [ih]
      · rw [if_pos (by simp [hj])]
        simp [ih]

theorem mploop_congr {i K j j' : ℕ}
    (h : ∀ t < order (i % 2 ^ K), j.testBit t = j'.testBit t) :
    mploop i j K = mploop i j' K := by
  induction K with
  | zero =>
    rfl
  | succ K ih =>
    have hmono : order (i % 2 ^ K) ≤ order (i % 2 ^ (K + 1)) := by
      cases hbit : i.testBit K
      · rw [order_mod_two_pow_succ_clear hbit]
      · rw [(order_mod_two_pow_succ_set hbit).2]
        omega
    have hrec := ih (fun t ht => h t (lt_of_lt_of_le ht hmono))
    rw [mploop, mploop, hrec]
    cases hbit : i.testBit K
    · rfl
    · have hcnt : (mploop i j' K).1 = order (i % 2 ^ K) := mploop_count i j' K
      have hlt : order (i % 2 ^ K) < order (i % 2 ^ (K + 1)) := by
        rw [(order_mod_two_pow_succ_set hbit).2]
        omega
      have hjj : j.testBit (mploop i j' K).1 = j'.testBit (mploop i j' K).1 := by
        rw [hcnt]
        exact h _ hlt
      rw [hjj]

theorem mploop_step_clear {i K : ℕ} (j : ℕ) (h : i.testBit K = false) :
    mploop i j (K + 1) = mploop i j K := by
  have hc : ¬(i.testBit K = true) := by simp [h]
  rw [mploop, if_neg hc]

theorem mploop_step_set {i K : ℕ} (j : ℕ) (h : i.testBit K = true) :
    mploop i j (K + 1) =
      if j.testBit ((mploop i j K).1) then
        ((mploop i j K).1 + 1, (mploop i j K).2.1 + 2 ^ K, (mploop i j K).2.2)
      else ((mploop i j K).1 + 1, (mploop i j K).2.1, (mploop i j K).2.2 + 2 ^ K) := by
  rw [mploop, if_pos h]

theorem mploop_partition_sum (i K : ℕ) (f g : ℕ → ℚ) :
    (∑ j ∈ Finset.range (2 ^ order (i % 2 ^ K)),
      f (mploop i j K).2.1 * g (mploop i j K).2.2)
    = ∑ m ∈ (Finset.range (2 ^ K)).filter (fun m => m &&& (i % 2 ^ K) = m),
        f m * g ((i % 2 ^ K) ^^^ m) := by
  induction K generalizing f g with
  | zero =>
    rw [pow_zero, Nat.mod_one, order_zero, pow_zero]
    rw [Finset.filter_true_of_mem (fun m hm => by
      rw [Finset.mem_range] at hm
      interval_cases m
      rfl)]
    rw [Finset.sum_range_one, Finset.sum_range_one]
    rfl
  | succ K ih =>
    have hpos2K : (0 : ℕ) < 2 ^ K := Nat.pos_pow_of_pos _ (by norm_num)
    have haK : i % 2 ^ K < 2 ^ K := Nat.mod_lt _ hpos2K
    cases hbit : i.testBit K
    · have hmod : i % 2 ^ (K + 1) = i % 2 ^ K := order_mod_two_pow_succ_clear hbit
      rw [hmod]
      have hL : (∑ j ∈ Finset.range (2 ^ order (i % 2 ^ K)),
          f (mploop i j (K + 1)).2.1 * g (mploop i j (K + 1)).2.2)
          = ∑ j ∈ Finset.range (2 ^ order (i % 2 ^ K)),
            f (mploop i j K).2.1 * g (mploop i j K).2.2 := by
        apply Finset.sum_congr rfl
        intro j _
        rw [mploop_step_clear j hbit]
      rw [hL, ih]
      have hset : (Finset.range (2 ^ K)).filter (fun m => m &&& (i % 2 ^ K) = m)
          = (Finset.range (2 ^ (K + 1))).filter (fun m => m &&& (i % 2 ^ K) = m) := by
        apply Finset.ext
        intro m
        simp only [Finset.mem_filter, Finset.mem_range]
        constructor
        · rintro ⟨h1, h2⟩
          exact ⟨lt_of_lt_of_le h1 (Nat.pow_le_pow_right (by norm_num) (by omega)), h2⟩
        · rintro ⟨h1, h2⟩
          refine ⟨?_, h2⟩
          have hle : m ≤ i % 2 ^ K := by
            conv_lhs => rw [← h2]
            exact Nat.and_le_right
          exact lt_of_le_of_lt hle haK
      rw [hset]
    · obtain ⟨hmod, hord⟩ := order_mod_two_pow_succ_set hbit
      have habit : (i % 2 ^ K).testBit K = false := testBit_high_of_lt haK (le_refl K)
      have hordK : order (i % 2 ^ K + 2 ^ K) = order (i % 2 ^ K) + 1 :=
        order_add_two_pow habit
      rw [hmod, hordK]
      have h2c : (2 : ℕ) ^ (order (i % 2 ^ K) + 1) =
          2 ^ order (i % 2 ^ K) + 2 ^ order (i % 2 ^ K) := by ring
      rw [h2c, Finset.sum_range_add]
      have hjlow : ∀ j, j < 2 ^ order (i % 2 ^ K) →
          mploop i j (K + 1) =
            ((mploop i j K).1 + 1, (mploop i j K).2.1, (mploop i j K).2.2 + 2 ^ K) := by
        intro j hj
        have hjc : j.testBit (order (i % 2 ^ K)) = false :=
          testBit_high_of_lt hj (le_refl _)
        have hneg : ¬(j.testBit ((mploop i j K).1) = true) := by
          rw [mploop_count]
          simp [hjc]
        rw [mploop_step_set j hbit, if_neg hneg]
      have hjhigh : ∀ j, j < 2 ^ order (i % 2 ^ K) →
          mploop i (2 ^ order (i % 2 ^ K) + j) (K + 1) =
            ((mploop i j K).1 + 1, (mploop i j K).2.1 + 2 ^ K, (mploop i j K).2.2) := by
        intro j hj
        have hjc : j.testBit (order (i % 2 ^ K)) = false :=
          testBit_high_of_lt hj (le_refl _)
        have hcongr : mploop i (2 ^ order (i % 2 ^ K) + j) K = mploop i j K := by
          apply mploop_congr
          intro t ht
          exact Nat.testBit_two_pow_add_gt ht j
        have hbitc : (2 ^ order (i % 2 ^ K) + j).testBit ((mploop i
            (2 ^ order (i % 2 ^ K) + j) K).1) = true := by
          rw [hcongr, mploop_count, Nat.testBit_two_pow_add_eq, hjc]
          rfl
        rw [mploop_step_set (2 ^ order (i % 2 ^ K) + j) hbit, if_pos hbitc, hcongr]
      have hsum1 : (∑ j ∈ Finset.range (2 ^ order (i % 2 ^ K)),
          f (mploop i j (K + 1)).2.1 * g (mploop i j (K + 1)).2.2)
          = ∑ j ∈ Finset.range (2 ^ order (i % 2 ^ K)),
            f (mploop i j K).2.1 * (fun x => g (x + 2 ^ K)) (mploop i j K).2.2 := by
        apply Finset.sum_congr rfl
        intro j hj
        rw [hjlow j (Finset.mem_range.mp hj)]
      have hsum2 : (∑ j ∈ Finset.range (2 ^ order (i % 2 ^ K)),
          f (mploop i (2 ^ order (i % 2 ^ K) + j) (K + 1)).2.1 *
            g (mploop i (2 ^ order (i % 2 ^ K) + j) (K + 1)).2.2)
          = ∑ j ∈ Finset.range (2 ^ order (i % 2 ^ K)),
            (fun x => f (x + 2 ^ K)) (mploop i j K).2.1 * g (mploop i j K).2.2 := by
        apply Finset.sum_congr rfl
        intro j hj
        rw [hjhigh j (Finset.mem_range.mp hj)]
      rw [hsum1, hsum2, ih f (fun x => g (x + 2 ^ K)), ih (fun x => f (x + 2 ^ K)) g]
      have h2K : (2 : ℕ) ^ (K + 1) = 2 ^ K + 2 ^ K := by ring
      have hterm1 : ∀ m ∈ Finset.range (2 ^ K),
          (if m &&& (i % 2 ^ K + 2 ^ K) = m then
            f m * g ((i % 2 ^ K + 2 ^ K) ^^^ m) else 0)
          = (if m &&& (i % 2 ^ K) = m then
            f m * g (((i % 2 ^ K) ^^^ m) + 2 ^ K) else 0) := by
        intro m hm
        have hmK : m < 2 ^ K := Finset.mem_range.mp hm
        by_cases hP : m &&& (i % 2 ^ K) = m
        · rw [if_pos ((land_add_two_pow_right_iff hmK habit).mpr hP), if_pos hP,
            xor_add_two_pow_left hmK haK]
        · rw [if_neg (fun hc => hP ((land_add_two_pow_right_iff hmK habit).mp hc)),
            if_neg hP]
      have hterm2 : ∀ m ∈ Finset.range (2 ^ K),
          (if (2 ^ K + m) &&& (i % 2 ^ K + 2 ^ K) = 2 ^ K + m then
            f (2 ^ K + m) * g ((i % 2 ^ K + 2 ^ K) ^^^ (2 ^ K + m)) else 0)
          = (if m &&& (i % 2 ^ K) = m then
            f (m + 2 ^ K) * g ((i % 2 ^ K) ^^^ m) else 0) := by
        intro m hm
        have hmK : m < 2 ^ K := Finset.mem_range.mp hm
        have hcomm : 2 ^ K + m = m + 2 ^ K := Nat.add_comm _ _
        rw [hcomm]
        by_cases hP : m &&& (i % 2 ^ K) = m
        · rw [if_pos ((land_add_two_pow_both_iff hmK habit).mpr hP), if_pos hP,
            xor_add_two_pow_both hmK haK]
        · rw [if_neg (fun hc => hP ((land_add_two_pow_both_iff hmK habit).mp hc)),
            if_neg hP]
      have hT : (∑ m ∈ (Finset.range (2 ^ (K + 1))).filter
            (fun m => m &&& (i % 2 ^ K + 2 ^ K) = m),
          f m * g ((i % 2 ^ K + 2 ^ K) ^^^ m))
          = (∑ m ∈ Finset.range (2 ^ K),
              (if m &&& (i % 2 ^ K + 2 ^ K) = m then
                f m * g ((i % 2 ^ K + 2 ^ K) ^^^ m) else 0))
            + ∑ m ∈ Finset.range (2 ^ K),
              (if (2 ^ K + m) &&& (i % 2 ^ K + 2 ^ K) = 2 ^ K + m then
                f (2 ^ K + m) * g ((i % 2 ^ K + 2 ^ K) ^^^ (2 ^ K + m)) else 0) := by
        rw [Finset.sum_filter, h2K, Finset.sum_range_add]
      have hS1 : (∑ m ∈ (Finset.range (2 ^ K)).filter
            (fun m => m &&& (i % 2 ^ K) = m),
          f m * (fun x => g (x + 2 ^ K)) ((i % 2 ^ K) ^^^ m))
          = ∑ m ∈ Finset.range (2 ^ K),
            (if m &&& (i % 2 ^ K) = m then
              f m * g (((i % 2 ^ K) ^^^ m) + 2 ^ K) else 0) := by
        rw [Finset.sum_filter]
      have hS2 : (∑ m ∈ (Finset.range (2 ^ K)).filter
            (fun m => m &&& (i % 2 ^ K) = m),
          (fun x => f (x + 2 ^ K)) m * g ((i % 2 ^ K) ^^^ m))
          = ∑ m ∈ Finset.range (2 ^ K),
            (if m &&& (i % 2 ^ K) = m then
              f (m + 2 ^ K) * g ((i % 2 ^ K) ^^^ m) else 0) := by
        rw [Finset.sum_filter]
      rw [hS1, hS2, hT, Finset.sum_congr rfl hterm1, Finset.sum_congr rfl hterm2]

/-- C1: in the free-recombination model, `recombine()` computes the
recombinant distribution in coefficient space — `coeff[0] = 1/2^L` and, for
every nonzero subset `i < 2^L`, the sum over all `2^order(i)` partitions of
the loci of `i` into a maternal part `m` and the complementary paternal part
`i ^^^ m` of `coeff[m]·coeff[i ^^^ m]`, multiplied by `2^(L − order i)` —
and then updates every genotype frequency as `population[i] +=
outcrossing_rate · (recombinants[i] − population[i])`. -/
theorem recombine_free_formula (L : ℕ) (oc : ℚ) (patterns : ℕ → ℕ → ℚ)
    (pop : ℕ → ℚ) :
    calculate_recombinants_free_coeff L (fft_func_to_coeff L pop) 0 = 1 / 2 ^ L ∧
    (∀ i, 0 < i → i < 2 ^ L →
      calculate_recombinants_free_coeff L (fft_func_to_coeff L pop) i =
        partition_sum L (fft_func_to_coeff L pop) i * 2 ^ (L - order i)) ∧
    (∀ i, (recombine L true oc patterns pop).1 i =
      pop i + oc * (fft_coeff_to_func L
        (calculate_recombinants_free_coeff L (fft_func_to_coeff L pop)) i - pop i)) := by
  refine ⟨rfl, ?_, fun i => rfl⟩
  intro i hi0 hiL
  have hne : i ≠ 0 := by omega
  have hmod : i % 2 ^ L = i := Nat.mod_eq_of_lt hiL
  have h := mploop_partition_sum i L (fft_func_to_coeff L pop) (fft_func_to_coeff L pop)
  rw [hmod] at h
  simp only [calculate_recombinants_free_coeff, partition_sum]
  rw [if_neg hne, h]

/-- Witness for C1: the partition-sum formula instantiated at `L = 1`,
subset `i = 1`, and a concrete non-uniform population. -/
theorem recombine_free_formula_witness :
    0 < 1 ∧ 1 < 2 ^ 1 ∧
    calculate_recombinants_free_coeff 1
      (fft_func_to_coeff 1 (fun n => if n = 0 then (1 : ℚ)/4 else 3/4)) 1 =
      partition_sum 1
        (fft_func_to_coeff 1 (fun n => if n = 0 then (1 : ℚ)/4 else 3/4)) 1 *
        2 ^ (1 - order 1) :=
  ⟨by norm_num, by norm_num,
    (recombine_free_formula 1 (1/2) (fun _ _ => 1)
      (fun n => if n = 0 then (1 : ℚ)/4 else 3/4)).2.1 1 (by norm_num) (by norm_num)⟩

theorem margLocus_even {s : ℕ} (h : s % 2 = 0) : margLocus s = 0 := by
  rw [margLocus, dif_pos h]

theorem margLocus_odd {s : ℕ} (h : s % 2 = 1) :
    margLocus s = margLocus (s / 2) + 1 := by
  rw [margLocus, dif_neg (by omega)]

theorem margLocus_clear (s : ℕ) : s.testBit (margLocus s) = false := by
  induction s using Nat.strong_induction_on with
  | _ s ih =>
    rcases Nat.mod_two_eq_zero_or_one s with h | h
    · rw [margLocus_even h, Nat.testBit_zero]
      simp [h]
    · rw [margLocus_odd h, Nat.testBit_add_one]
      exact ih (s / 2) (Nat.div_lt_self (by omega) (by norm_num))

theorem mem_downList {x n : ℕ} : x ∈ downList n ↔ x < n := by
  induction n with
  | zero =>
    simp [downList]
  | succ n ih =>
    rw [downList]
    simp [ih]
    omega

theorem downList_split {m L : ℕ} (h : m < L) :
    ∃ pre, downList L = pre ++ m :: downList m := by
  induction L with
  | zero =>
    omega
  | succ L ih =>
    rcases eq_or_lt_of_le (Nat.lt_succ_iff.mp h) with hEq | hlt
    · exact ⟨[], by rw [downList, hEq]; rfl⟩
    · obtain ⟨pre, hpre⟩ := ih hlt
      exact ⟨L :: pre, by rw [downList, hpre]; rfl⟩

theorem marg_step_other {set_size : ℕ} {T : ℕ → ℕ → ℚ} {subset s r : ℕ}
    (h : s ≠ subset) : marg_step set_size T subset s r = T s r := by
  rw [marg_step]
  rcases eq_or_ne (order subset) set_size with hEq | hne
  · rw [if_pos hEq, marg_write, if_neg (by tauto)]
  · rw [if_neg hne]

theorem foldl_marg_step_not_mem {set_size : ℕ} {l : List ℕ} {T : ℕ → ℕ → ℚ}
    {s r : ℕ} (h : s ∉ l) :
    (l.foldl (marg_step set_size) T) s r = T s r := by
  induction l generalizing T with
  | nil =>
    rfl
  | cons hd tl ih =>
    rw [List.foldl_cons]
    rw [List.mem_cons] at h
    push_neg at h
    rw [ih h.2, marg_step_other h.1]

theorem foldl_marg_step_wrong_order {set_size : ℕ} {l : List ℕ}
    {T : ℕ → ℕ → ℚ} {s r : ℕ} (h : order s ≠ set_size) :
    (l.foldl (marg_step set_size) T) s r = T s r := by
  induction l generalizing T with
  | nil =>
    rfl
  | cons hd tl ih =>
    rw [List.foldl_cons, ih]
    rw [marg_step]
    rcases eq_or_ne (order hd) set_size with hEq | hne
    · rw [if_pos hEq, marg_write]
      rw [if_neg (by rintro ⟨rfl, -⟩; exact h hEq)]
    · rw [if_neg hne]

theorem marg_step_keeps_other_rows {set_size : ℕ} {T : ℕ → ℕ → ℚ}
    {subset s r : ℕ} (h : order s ≠ set_size) :
    marg_step set_size T subset s r = T s r := by
  rw [marg_step]
  rcases eq_or_ne (order subset) set_size with hEq | hne
  · rw [if_pos hEq, marg_write]
    rw [if_neg (by rintro ⟨rfl, -⟩; exact h hEq)]
  · rw [if_neg hne]

theorem foldl_marg_step_write {set_size : ℕ} {l : List ℕ} {T : ℕ → ℕ → ℚ}
    {s r : ℕ} (hnd : l.Nodup) (hmem : s ∈ l) (hord : order s = set_size)
    (hr : r < 2 ^ set_size) (hhos : order (s + 2 ^ margLocus s) ≠ set_size) :
    (l.foldl (marg_step set_size) T) s r =
      T (s + 2 ^ margLocus s)
          (higher_order_rec_pattern set_size (margLocus s) r) +
        T (s + 2 ^ margLocus s)
          (higher_order_rec_pattern set_size (margLocus s) r +
            2 ^ margLocus s) := by
  induction l generalizing T with
  | nil =>
    cases hmem
  | cons hd tl ih =>
    rw [List.foldl_cons]
    rw [List.nodup_cons] at hnd
    rcases eq_or_ne s hd with hEq | hne
    · subst hEq
      have hnotin : s ∉ tl := hnd.1
      rw [foldl_marg_step_not_mem hnotin]
      rw [marg_step, if_pos hord, marg_write, if_pos ⟨rfl, hr⟩]
    · have hmem2 : s ∈ tl := by
        rcases List.mem_cons.mp hmem with h1 | h1
        · exact absurd h1 hne
        · exact h1
      rw [ih hnd.2 hmem2]
      rw [marg_step_keeps_other_rows hhos, marg_step_keeps_other_rows hhos]

theorem foldl_pass_wrong_order {L : ℕ} {ls : List ℕ} {T : ℕ → ℕ → ℚ}
    {s r : ℕ} (h : order s ∉ ls) :
    (ls.foldl (pass_step L) T) s r = T s r := by
  induction ls generalizing T with
  | nil =>
    rfl
  | cons hd tl ih =>
    rw [List.foldl_cons]
    rw [List.mem_cons] at h
    push_neg at h
    rw [ih h.2, pass_step, marg_pass, foldl_marg_step_wrong_order h.1]

/-- C2: after `set_recombination_rates` completes, for every strict locus
subset `s` and every partition pattern `r` of `s`, the table entry at
`(s, r)` equals the sum of the two entries of the next-higher-order row
`s + 2^marg` (adding the lowest locus absent from `s`) at the two patterns
extending `r` by assigning the added locus to either parent. -/
theorem set_recombination_rates_marginalization (L : ℕ) (expF : ℚ → ℚ)
    (rr : ℕ → ℚ) (Tinit : ℕ → ℕ → ℚ) (s r : ℕ)
    (hs : s < 2 ^ L) (hsne : s ≠ 2 ^ L - 1) (hr : r < 2 ^ order s) :
    set_recombination_rates_table L expF rr Tinit s r =
      set_recombination_rates_table L expF rr Tinit (s + 2 ^ margLocus s)
        (higher_order_rec_pattern (order s) (margLocus s) r) +
      set_recombination_rates_table L expF rr Tinit (s + 2 ^ margLocus s)
        (higher_order_rec_pattern (order s) (margLocus s) r + 2 ^ margLocus s) := by
  have hmle : order s ≤ L := order_le_of_lt_two_pow hs
  have hmL : order s < L := by
    rcases eq_or_lt_of_le hmle with hEq | hlt
    · exact absurd (eq_two_pow_sub_one_of_order_eq hs hEq) hsne
    · exact hlt
  have hclear : s.testBit (margLocus s) = false := margLocus_clear s
  have hordhos : order (s + 2 ^ margLocus s) = order s + 1 :=
    order_add_two_pow hclear
  obtain ⟨pre, hpre⟩ := downList_split hmL
  rw [set_recombination_rates_table, hpre, List.foldl_append, List.foldl_cons]
  have hnotin1 : order s ∉ downList (order s) := by
    rw [mem_downList]
    omega
  have hnotin2 : order (s + 2 ^ margLocus s) ∉ downList (order s) := by
    rw [mem_downList]
    omega
  rw [foldl_pass_wrong_order hnotin1, foldl_pass_wrong_order hnotin2,
    foldl_pass_wrong_order hnotin2]
  rw [pass_step, marg_pass]
  rw [foldl_marg_step_write (List.nodup_range _) (List.mem_range.mpr hs) rfl hr
    (by omega)]
  have hno : order (s + 2 ^ margLocus s) ≠ order s := by omega
  rw [foldl_marg_step_wrong_order hno, foldl_marg_step_wrong_order hno]

/-- Witness for C2 at `L = 2`, strict subset `s = 1`, pattern `r = 1`. -/
theorem set_recombination_rates_marginalization_witness :
    (1 < 2 ^ 2 ∧ 1 ≠ 2 ^ 2 - 1 ∧ 1 < 2 ^ order 1) ∧
    set_recombination_rates_table 2 (fun x => x) (fun _ => 1) (fun _ _ => 0) 1 1 =
      set_recombination_rates_table 2 (fun x => x) (fun _ => 1) (fun _ _ => 0)
        (1 + 2 ^ margLocus 1)
        (higher_order_rec_pattern (order 1) (margLocus 1) 1) +
      set_recombination_rates_table 2 (fun x => x) (fun _ => 1) (fun _ _ => 0)
        (1 + 2 ^ margLocus 1)
        (higher_order_rec_pattern (order 1) (margLocus 1) 1 + 2 ^ margLocus 1) := by
  have horder : order 1 = 1 := by
    rw [order_rec]
    norm_num [order_zero]
  have hr : 1 < 2 ^ order 1 := by
    rw [horder]
    norm_num
  exact ⟨⟨by norm_num, by norm_num, hr⟩,
    set_recombination_rates_marginalization 2 (fun x => x) (fun _ => 1)
      (fun _ _ => 0) 1 1 (by norm_num) (by norm_num) hr⟩

end HaploidLowd
